import Mathlib

/-!
Verification development for the r2d2-nodejs-logs library (`src/logger.ts`).

The library is a structured JSON logger: a `Logger` owns a service name and a
verbosity threshold resolved once from the environment, binds its four public
methods (`error`, `warn`, `info`, `debug`) to an active emitter or a no-op at
construction, sanitizes arbitrary runtime values (functions, errors, cyclic
object graphs) into JSON-safe data, and emits single-line JSON records to
standard output or standard error.

JavaScript runtime values are embedded as trees of primitives with explicit
heap references, so that cyclic and shared object graphs are representable.
Functions and `Error` instances are modelled as leaf values carrying the only
data the logger ever reads from them (`toString()` source text, respectively
`name`/`message`/`stack`): `sanitizeObject` converts both before its
`WeakSet` membership test, so their object identity is never consulted.
Nondeterministic envelope data (the `Date` timestamp and the stack-scraped
caller name) is passed in as explicit parameters.
-/

namespace R2D2Log

/-- `enum LogLevel { ERROR = 0, WARN = 1, INFO = 2, DEBUG = 3 }`. -/
inductive LogLevel where
  | ERROR
  | WARN
  | INFO
  | DEBUG
deriving DecidableEq, Repr

/-- The numeric value of each `LogLevel` enum member. -/
def LogLevel.rank : LogLevel → Nat
  | .ERROR => 0
  | .WARN => 1
  | .INFO => 2
  | .DEBUG => 3

/-- The reverse enum mapping `LogLevel[level]`, yielding the level's name. -/
def LogLevel.levelName : LogLevel → String
  | .ERROR => "ERROR"
  | .WARN => "WARN"
  | .INFO => "INFO"
  | .DEBUG => "DEBUG"

/-- `Logger.parseLogLevel`: case-insensitive match of the environment value
(`undefined` modelled as `none`) against the four level names; any other or
absent value falls through to the `default` branch returning `INFO`. -/
def parseLogLevel (logLevel : Option String) : LogLevel :=
  match logLevel.map String.toLower with
  | some "error" => .ERROR
  | some "warn" => .WARN
  | some "info" => .INFO
  | some "debug" => .DEBUG
  | _ => .INFO

/-- A JavaScript runtime value as seen by the logger: primitives, function
values (carrying their `toString()` source text), `Error` instances (carrying
`name`, `message`, `stack`), and references into a heap of objects/arrays. -/
inductive JSVal where
  | str (s : String)
  | num (n : Int)
  | bool (b : Bool)
  | null
  | undef
  | fn (src : String)
  | err (name message stack : String)
  | ref (a : Nat)
deriving DecidableEq, Repr

/-- A heap object: an array of values or a plain object, i.e. an ordered list
of own enumerable string-keyed properties (`Object.entries` order). -/
inductive HeapObj where
  | arr (elems : List JSVal)
  | obj (fields : List (String × JSVal))
deriving DecidableEq, Repr

/-- An object heap: addresses paired with the objects they denote. -/
abbrev Heap := List (Nat × HeapObj)

/-- Dereference an address in the heap. -/
def heapLookup (H : Heap) (a : Nat) : Option HeapObj :=
  match H with
  | [] => none
  | (b, o) :: rest => if a = b then some o else heapLookup rest a

/-- The set of addresses bound in a heap. -/
def Heap.addrs (H : Heap) : Finset Nat := (H.map Prod.fst).toFinset

/-- A sanitized value: the output universe of `sanitizeObject`. The `fnv` and
`errv` constructors make function and error values *representable* in the
output type, so that their absence from every actual output is a theorem
rather than a typing accident. -/
inductive SVal where
  | str (s : String)
  | num (n : Int)
  | bool (b : Bool)
  | null
  | undef
  | fnv (src : String)
  | errv (name message stack : String)
  | arr (elems : List SVal)
  | obj (fields : List (String × SVal))

/-- `result[key] = v` on a JavaScript object modelled as an ordered field
list: an existing key keeps its position and gets the new value; a new key is
appended (insertion order). -/
def setKey : List (String × SVal) → String → SVal → List (String × SVal)
  | [], k, v => [(k, v)]
  | (k', v') :: rest, k, v =>
      if k' = k then (k', v) :: rest else (k', v') :: setKey rest k v

/-- Build a JavaScript object by successive `result[key] = v` assignments,
starting from `base`: later duplicate keys overwrite in place. -/
def assignFields (base : List (String × SVal)) (fs : List (String × SVal)) :
    List (String × SVal) :=
  fs.foldl (fun acc kv => setKey acc kv.1 kv.2) base

/-- Measure for `sanitizeObject`'s recursion: the number of heap addresses
not yet in the `seen` set. -/
def freeAddrs (H : Heap) (seen : Finset Nat) : Nat := (H.addrs \ seen).card

theorem mem_addrs_of_heapLookup {H : Heap} {a : Nat} {o : HeapObj}
    (h : heapLookup H a = some o) : a ∈ H.addrs := by
  induction H with
  | nil => simp [heapLookup] at h
  | cons hd tl ih =>
      rw [heapLookup] at h
      by_cases hab : a = hd.1
      · subst hab
        simp [Heap.addrs]
      · rw [if_neg hab] at h
        have := ih h
        simp [Heap.addrs] at this ⊢
        exact Or.inr this

theorem freeAddrs_insert_lt {H : Heap} {seen : Finset Nat} {a : Nat}
    {o : HeapObj} (h : heapLookup H a = some o) (hs : a ∉ seen) :
    freeAddrs H (insert a seen) < freeAddrs H seen := by
  have ha : a ∈ H.addrs := mem_addrs_of_heapLookup h
  have hmem : a ∈ H.addrs \ seen := Finset.mem_sdiff.mpr ⟨ha, hs⟩
  have hsub : H.addrs \ insert a seen = (H.addrs \ seen).erase a := by
    ext x
    simp [Finset.mem_sdiff, Finset.mem_erase, Finset.mem_insert]
    tauto
  rw [freeAddrs, freeAddrs, hsub]
  exact Finset.card_erase_lt_of_mem hmem

theorem freeAddrs_union_le (H : Heap) (seen s' : Finset Nat) :
    freeAddrs H (seen ∪ s') ≤ freeAddrs H seen := by
  apply Finset.card_le_card
  apply Finset.sdiff_subset_sdiff (le_refl _)
  exact Finset.subset_union_left

mutual

/-- `sanitizeValue` from `Logger.sanitizeObject`, with the mutated `WeakSet`
`seen` threaded explicitly: functions become their source text, errors become
a `{name, message, stack}` mapping (both before the `seen` test), an already
seen object becomes the string `"[Circular]"`, an unseen object is added to
`seen` and recursed into (arrays element-wise; objects field-wise through
`result[key] = ...` assignments), and primitives pass through.
The set passed to the recursive continuation is written `seen ∪ r.2`; since
the `WeakSet` only ever grows, the returned set `r.2` already contains
`seen`, so this is the identity on it and only serves the termination
measure. -/
def sanitizeValue (H : Heap) (seen : Finset Nat) (v : JSVal) :
    SVal × Finset Nat :=
  match v with
  | .str s => (.str s, seen)
  | .num n => (.num n, seen)
  | .bool b => (.bool b, seen)
  | .null => (.null, seen)
  | .undef => (.undef, seen)
  | .fn src => (.str src, seen)
  | .err n m st =>
      (.obj [("name", .str n), ("message", .str m), ("stack", .str st)], seen)
  | .ref a =>
      if ha : a ∈ seen then (.str "[Circular]", seen)
      else
        match hl : heapLookup H a with
        | none => (.undef, seen)
        | some (.arr elems) =>
            let r := sanitizeElems H (insert a seen) elems
            (.arr r.1, r.2)
        | some (.obj fields) =>
            let r := sanitizeFields H (insert a seen) fields
            (.obj (assignFields [] r.1), r.2)
  termination_by (freeAddrs H seen, 0)
  decreasing_by
  · exact Prod.Lex.left _ _ (freeAddrs_insert_lt hl ha)
  · exact Prod.Lex.left _ _ (freeAddrs_insert_lt hl ha)

/-- `value.map(sanitizeValue)` over an array's elements, threading the
`seen` set left to right. -/
def sanitizeElems (H : Heap) (seen : Finset Nat) (vs : List JSVal) :
    List SVal × Finset Nat :=
  match vs with
  | [] => ([], seen)
  | v :: rest =>
      let r := sanitizeValue H seen v
      let rs := sanitizeElems H (seen ∪ r.2) rest
      (r.1 :: rs.1, rs.2)
  termination_by (freeAddrs H seen, vs.length + 1)
  decreasing_by
  · exact Prod.Lex.right _ (by simp)
  · rcases Nat.lt_or_ge (freeAddrs H (seen ∪ r.2)) (freeAddrs H seen) with hlt | hge
    · exact Prod.Lex.left _ _ hlt
    · have heq : freeAddrs H (seen ∪ r.2) = freeAddrs H seen :=
        Nat.le_antisymm (freeAddrs_union_le H seen r.2) hge
      rw [heq]
      exact Prod.Lex.right _ (Nat.lt_succ_self _)

/-- `for (const [key, val] of Object.entries(value))` over an object's
fields: sanitize each value, threading the `seen` set left to right, and
return the key/value pairs in iteration order (the caller then performs the
`result[key] = ...` assignments). -/
def sanitizeFields (H : Heap) (seen : Finset Nat)
    (fs : List (String × JSVal)) : List (String × SVal) × Finset Nat :=
  match fs with
  | [] => ([], seen)
  | (k, v) :: rest =>
      let r := sanitizeValue H seen v
      let rs := sanitizeFields H (seen ∪ r.2) rest
      ((k, r.1) :: rs.1, rs.2)
  termination_by (freeAddrs H seen, fs.length + 1)
  decreasing_by
  · exact Prod.Lex.right _ (by simp)
  · rcases Nat.lt_or_ge (freeAddrs H (seen ∪ r.2)) (freeAddrs H seen) with hlt | hge
    · exact Prod.Lex.left _ _ hlt
    · have heq : freeAddrs H (seen ∪ r.2) = freeAddrs H seen :=
        Nat.le_antisymm (freeAddrs_union_le H seen r.2) hge
      rw [heq]
      exact Prod.Lex.right _ (Nat.lt_succ_self _)

end

/-- `Logger.sanitizeObject(obj)`: one top-level sanitize call with a fresh
(empty) `seen` set. -/
def sanitizeObject (H : Heap) (v : JSVal) : SVal := (sanitizeValue H ∅ v).1

/-- JSON string escaping for one character, as performed by
`JSON.stringify` (the common escapes; exotic control characters do not occur
in any value this development evaluates). -/
def jsonEscapeChar (c : Char) : List Char :=
  if c = '"' then ['\\', '"']
  else if c = '\\' then ['\\', '\\']
  else if c = '\n' then ['\\', 'n']
  else if c = '\r' then ['\\', 'r']
  else if c = '\t' then ['\\', 't']
  else [c]

/-- A JSON string literal: the escaped characters between double quotes. -/
def jsonQuote (s : String) : String :=
  ⟨'"' :: (s.data.map jsonEscapeChar).flatten ++ ['"']⟩

mutual

/-- `JSON.stringify` on sanitized values. `none` models the JavaScript
result `undefined` (for `undefined` and function values); a raw `Error`
instance has no own enumerable properties, so it serializes as `"{}"`. -/
def SVal.stringify? : SVal → Option String
  | .str s => some (jsonQuote s)
  | .num n => some (toString n)
  | .bool b => some (if b then "true" else "false")
  | .null => some "null"
  | .undef => none
  | .fnv _ => none
  | .errv _ _ _ => some "{}"
  | .arr es => some ("[" ++ String.intercalate "," (stringifyElems es) ++ "]")
  | .obj fs =>
      some ("\x7b" ++ String.intercalate "," (stringifyProps fs) ++ "\x7d")

/-- Array elements: an element serializing to `undefined` becomes `null`. -/
def stringifyElems : List SVal → List String
  | [] => []
  | v :: vs => ((SVal.stringify? v).getD "null") :: stringifyElems vs

/-- Object properties: a property whose value serializes to `undefined` is
omitted. -/
def stringifyProps : List (String × SVal) → List String
  | [] => []
  | (k, v) :: fs =>
      match SVal.stringify? v with
      | none => stringifyProps fs
      | some s => (jsonQuote k ++ ":" ++ s) :: stringifyProps fs

end

/-- A log record under construction: the ordered own properties of the
`logMessage` object. -/
abbrev LogRecord := List (String × SVal)

/-- Property read `record[key]` (records built here never hold duplicate
keys, so the first occurrence is the property). -/
def getKey : LogRecord → String → Option SVal
  | [], _ => none
  | (k', v) :: rest, k => if k' = k then some v else getKey rest k

/-- `JSON.stringify(logMessage)`: serialize the record object. -/
def stringifyRecord (r : LogRecord) : String :=
  "\x7b" ++ String.intercalate "," (stringifyProps r) ++ "\x7d"

/-- What a public logging method is bound to at construction: the closure
returned by `createLogMethod(level)`, or `noOp`. -/
inductive LogMethodImpl where
  | active (level : LogLevel)
  | noOp
deriving DecidableEq, Repr

/-- The `Logger` instance state after the constructor ran: the service name,
the resolved threshold, and the four method bindings. -/
structure Logger where
  microservice : String
  logLevel : LogLevel
  error : LogMethodImpl
  warn : LogMethodImpl
  info : LogMethodImpl
  debug : LogMethodImpl

/-- `new Logger(microservice)` with `process.env.LOG_LEVEL = envLogLevel`:
resolves the threshold via `parseLogLevel` once, then binds each public
method to `createLogMethod(severity)` iff `this.logLevel >= severity`
(numeric comparison of enum values), else to `noOp`. -/
def mkLogger (microservice : String) (envLogLevel : Option String) : Logger :=
  let logLevel := parseLogLevel envLogLevel
  { microservice := microservice
    logLevel := logLevel
    error := if LogLevel.ERROR.rank ≤ logLevel.rank then .active .ERROR else .noOp
    warn := if LogLevel.WARN.rank ≤ logLevel.rank then .active .WARN else .noOp
    info := if LogLevel.INFO.rank ≤ logLevel.rank then .active .INFO else .noOp
    debug := if LogLevel.DEBUG.rank ≤ logLevel.rank then .active .DEBUG else .noOp }

/-- The binding held in the public field for a given severity. -/
def Logger.methodFor (lg : Logger) : LogLevel → LogMethodImpl
  | .ERROR => lg.error
  | .WARN => lg.warn
  | .INFO => lg.info
  | .DEBUG => lg.debug

/-- The argument of a logging method: `string | Record<string, unknown>`.
A structured record is a value together with the heap it references into. -/
inductive LogInput where
  | str (s : String)
  | record (H : Heap) (v : JSVal)

/-- `Object.assign(logMessage, sanitized)` — the sanitized value of a
`Record<string, unknown>` input is an object, whose own enumerable
properties are assigned into the record one by one; a primitive source
contributes no properties. -/
def mergeSanitized (base : LogRecord) : SVal → LogRecord
  | .obj fs => assignFields base fs
  | _ => base

/-- `Logger.formatMessage(level, message)`, with the nondeterministic
envelope data (`new Date().toISOString()` and `getCallerInfo()`) passed in
as `ts` and `caller`: builds the record with the five reserved keys in
insertion order, the `message` key holding the input string verbatim or
`JSON.stringify(sanitizeObject(message))`, then for a non-string input
`Object.assign`s the sanitized object's top-level properties over it. -/
def formatMessage (microservice ts caller level : String)
    (message : LogInput) : LogRecord :=
  let base : LogRecord :=
    [("timestamp", .str ts),
     ("level", .str level),
     ("message",
       match message with
       | .str s => .str s
       | .record H v =>
           match (sanitizeObject H v).stringify? with
           | some s => .str s
           | none => .undef),
     ("microservice", .str microservice),
     ("caller", .str caller)]
  match message with
  | .str _ => base
  | .record H v => mergeSanitized base (sanitizeObject H v)

/-- The two output channels: `console.log` writes to standard output,
`console.error` to standard error. -/
inductive OutStream where
  | stdout
  | stderr
deriving DecidableEq, Repr

/-- One observable emission: a single line on one stream. -/
abbrev Event := OutStream × String

/-- Calling a bound method: `noOp` does nothing at all; the closure from
`createLogMethod(level)` formats the record, serializes it, and writes the
line via `console.error` when `level <= LogLevel.ERROR`, else
`console.log`. -/
def invokeImpl (lg : Logger) (impl : LogMethodImpl) (ts caller : String)
    (input : LogInput) : List Event :=
  match impl with
  | .noOp => []
  | .active level =>
      let logMessage :=
        formatMessage lg.microservice ts caller level.levelName input
      let output := stringifyRecord logMessage
      if level.rank ≤ LogLevel.ERROR.rank then [(.stderr, output)]
      else [(.stdout, output)]

/-- `errorMessage.replace(/\n/g, ' ')`: every newline character becomes a
single space. -/
def replaceNewlines (s : String) : String :=
  ⟨s.data.map (fun c => if c = '\n' then ' ' else c)⟩

/-- `Logger.logComplexError(error)`: gated on
`this.logLevel >= LogLevel.ERROR`; a native `Error` yields
`"<name>: <message>\n<stack>"`, any other value
`JSON.stringify(this.sanitizeObject(error))` (a string for every value the
TypeScript type admits); newlines are then flattened to spaces and the
result logged through the bound `this.error` method as
`{ complexError: errorMessage }` (a fresh one-object heap). -/
def logComplexError (lg : Logger) (ts caller : String) (H : Heap)
    (v : JSVal) : List Event :=
  if LogLevel.ERROR.rank ≤ lg.logLevel.rank then
    let errorMessage :=
      match v with
      | .err n m st => n ++ ": " ++ m ++ "\n" ++ st
      | _ => ((sanitizeObject H v).stringify?).getD "undefined"
    invokeImpl lg lg.error ts caller
      (.record [(0, .obj [("complexError", .str (replaceNewlines errorMessage))])]
        (.ref 0))
  else []

/-- The `errorMessage` string `logComplexError` computes before newline
flattening, branch by branch: `"<name>: <message>\n<stack>"` for a native
`Error`, `JSON.stringify(this.sanitizeObject(error))` for every other
value. -/
def complexErrorMessage (H : Heap) (v : JSVal) : String :=
  match v with
  | .err n m st => n ++ ": " ++ m ++ "\n" ++ st
  | _ => ((sanitizeObject H v).stringify?).getD "undefined"

mutual

/-- No function value occurs anywhere in a sanitized value. -/
def SVal.funFree : SVal → Bool
  | .fnv _ => false
  | .arr es => funFreeElems es
  | .obj fs => funFreeProps fs
  | _ => true

/-- `SVal.funFree` on every array element. -/
def funFreeElems : List SVal → Bool
  | [] => true
  | v :: vs => v.funFree && funFreeElems vs

/-- `SVal.funFree` on every property value. -/
def funFreeProps : List (String × SVal) → Bool
  | [] => true
  | (_, v) :: fs => v.funFree && funFreeProps fs

end

mutual

/-- No `Error` instance occurs anywhere in a sanitized value. -/
def SVal.errFree : SVal → Bool
  | .errv _ _ _ => false
  | .arr es => errFreeElems es
  | .obj fs => errFreeProps fs
  | _ => true

/-- `SVal.errFree` on every array element. -/
def errFreeElems : List SVal → Bool
  | [] => true
  | v :: vs => v.errFree && errFreeElems vs

/-- `SVal.errFree` on every property value. -/
def errFreeProps : List (String × SVal) → Bool
  | [] => true
  | (_, v) :: fs => v.errFree && errFreeProps fs

end

mutual

/-- Every object node of a value tree has pairwise-distinct keys — the
invariant every real JavaScript object satisfies. -/
def SVal.wfKeys : SVal → Bool
  | .arr es => wfKeysElems es
  | .obj fs => (fs.map Prod.fst).Nodup && wfKeysProps fs
  | _ => true

/-- `SVal.wfKeys` on every array element. -/
def wfKeysElems : List SVal → Bool
  | [] => true
  | v :: vs => v.wfKeys && wfKeysElems vs

/-- `SVal.wfKeys` on every property value. -/
def wfKeysProps : List (String × SVal) → Bool
  | [] => true
  | (_, v) :: fs => v.wfKeys && wfKeysProps fs

end

/-- The addresses a heap object references directly. -/
def HeapObj.refsOf : HeapObj → List Nat
  | .arr es => es.filterMap (fun v => match v with | .ref a => some a | _ => none)
  | .obj fs =>
      fs.filterMap (fun kv => match kv.2 with | .ref a => some a | _ => none)

/-- `reachesIn H fuel a b`: some reference chain of length between 1 and
`fuel` leads from address `a` to address `b`. -/
def reachesIn (H : Heap) : Nat → Nat → Nat → Bool
  | 0, _, _ => false
  | fuel + 1, a, b =>
      match heapLookup H a with
      | none => false
      | some o => o.refsOf.any (fun c => c = b || reachesIn H fuel c b)

/-- The heap is cycle-free: no address reaches itself (chains longer than
the heap revisit an address, so `H.length + 1` fuel is exhaustive). -/
def acyclicB (H : Heap) : Bool :=
  (H.map Prod.fst).all (fun a => !reachesIn H (H.length + 1) a a)

/-- The value itself is not a function and not an `Error` instance. -/
def JSVal.plainB : JSVal → Bool
  | .fn _ => false
  | .err _ _ _ => false
  | _ => true

/-- The values held directly by a heap object. -/
def HeapObj.vals : HeapObj → List JSVal
  | .arr es => es
  | .obj fs => fs.map Prod.snd

/-- No function and no `Error` instance occurs anywhere in the heap. -/
def plainHeapB (H : Heap) : Bool :=
  H.all (fun p => p.2.vals.all JSVal.plainB)

mutual

/-- The structure of a heap value as a tree, unfolding references up to
`fuel` levels deep: the formal meaning of "structurally" comparing a
possibly heap-shared value with plain data. `none` when the fuel runs out
or a reference dangles. -/
def unfoldVal (H : Heap) : Nat → JSVal → Option SVal
  | _, .str s => some (.str s)
  | _, .num n => some (.num n)
  | _, .bool b => some (.bool b)
  | _, .null => some .null
  | _, .undef => some .undef
  | _, .fn src => some (.fnv src)
  | _, .err n m st => some (.errv n m st)
  | 0, .ref _ => none
  | fuel + 1, .ref a =>
      match heapLookup H a with
      | none => none
      | some (.arr es) => (unfoldElems H fuel es).map SVal.arr
      | some (.obj fs) => (unfoldProps H fuel fs).map SVal.obj
  termination_by fuel _ => (fuel, 0)
  decreasing_by
  · exact Prod.Lex.left _ _ (Nat.lt_succ_self _)
  · exact Prod.Lex.left _ _ (Nat.lt_succ_self _)

/-- `unfoldVal` over a list of array elements. -/
def unfoldElems (H : Heap) : Nat → List JSVal → Option (List SVal)
  | _, [] => some []
  | fuel, v :: vs => do
      let s ← unfoldVal H fuel v
      let rest ← unfoldElems H fuel vs
      pure (s :: rest)
  termination_by fuel vs => (fuel, vs.length + 1)
  decreasing_by
  · exact Prod.Lex.right _ (by simp)
  · exact Prod.Lex.right _ (by simp)

/-- `unfoldVal` over a list of object properties. -/
def unfoldProps (H : Heap) : Nat → List (String × JSVal) →
    Option (List (String × SVal))
  | _, [] => some []
  | fuel, (k, v) :: fs => do
      let s ← unfoldVal H fuel v
      let rest ← unfoldProps H fuel fs
      pure ((k, s) :: rest)
  termination_by fuel fs => (fuel, fs.length + 1)
  decreasing_by
  · exact Prod.Lex.right _ (by simp)
  · exact Prod.Lex.right _ (by simp)

end

/-- The result of laying a value tree out in a heap: the resulting value,
the freshly allocated heap fragment, and the next free address. -/
structure Alloc (α : Type) where
  val : α
  frag : Heap
  next : Nat
deriving Repr

mutual

/-- Lay a tree-shaped value out as heap data, allocating a fresh address
for every array/object node (so every object is referenced exactly once):
the canonical heap representation of sharing-free plain data. -/
def allocTree : SVal → Nat → Alloc JSVal
  | .str s, n => ⟨.str s, [], n⟩
  | .num m, n => ⟨.num m, [], n⟩
  | .bool b, n => ⟨.bool b, [], n⟩
  | .null, n => ⟨.null, [], n⟩
  | .undef, n => ⟨.undef, [], n⟩
  | .fnv src, n => ⟨.fn src, [], n⟩
  | .errv a b c, n => ⟨.err a b c, [], n⟩
  | .arr es, n =>
      let r := allocTreeElems es (n + 1)
      ⟨.ref n, (n, .arr r.val) :: r.frag, r.next⟩
  | .obj fs, n =>
      let r := allocTreeProps fs (n + 1)
      ⟨.ref n, (n, .obj r.val) :: r.frag, r.next⟩

/-- `allocTree` over array elements, threading the next free address. -/
def allocTreeElems : List SVal → Nat → Alloc (List JSVal)
  | [], n => ⟨[], [], n⟩
  | v :: vs, n =>
      let r := allocTree v n
      let rs := allocTreeElems vs r.next
      ⟨r.val :: rs.val, r.frag ++ rs.frag, rs.next⟩

/-- `allocTree` over object properties, threading the next free address. -/
def allocTreeProps : List (String × SVal) → Nat → Alloc (List (String × JSVal))
  | [], n => ⟨[], [], n⟩
  | (k, v) :: fs, n =>
      let r := allocTree v n
      let rs := allocTreeProps fs r.next
      ⟨(k, r.val) :: rs.val, r.frag ++ rs.frag, rs.next⟩

end

/-- `pat` is a leading segment of `l`. -/
def startsWithSeq : List Char → List Char → Bool
  | [], _ => true
  | _ :: _, [] => false
  | a :: pat, b :: l => a == b && startsWithSeq pat l

/-- `pat` occurs contiguously somewhere in `l`. -/
def hasSeq : List Char → List Char → Bool
  | pat, [] => startsWithSeq pat []
  | pat, c :: rest => startsWithSeq pat (c :: rest) || hasSeq pat rest

/-- The string `s` contains `pat` as a contiguous substring. -/
def strHas (pat s : String) : Bool := hasSeq pat.data s.data

/-- The string contains no newline character. -/
def noNewlineB (s : String) : Bool := !s.data.any (fun c => c == '\n')

theorem startsWithSeq_iff {pat l : List Char} :
    startsWithSeq pat l = true ↔ ∃ q, l = pat ++ q := by
  induction pat generalizing l with
  | nil => simp [startsWithSeq]
  | cons a pat ih =>
      cases l with
      | nil => simp [startsWithSeq]
      | cons b l =>
          simp only [startsWithSeq, Bool.and_eq_true, beq_iff_eq, ih,
            List.cons_append, List.cons.injEq]
          constructor
          · rintro ⟨rfl, q, rfl⟩
            exact ⟨q, rfl, rfl⟩
          · rintro ⟨q, rfl, rfl⟩
            exact ⟨rfl, q, rfl⟩

theorem hasSeq_iff {pat l : List Char} :
    hasSeq pat l = true ↔ ∃ p q, l = p ++ pat ++ q := by
  induction l with
  | nil =>
      simp only [hasSeq, startsWithSeq_iff]
      constructor
      · rintro ⟨q, hq⟩
        exact ⟨[], q, by simpa using hq⟩
      · rintro ⟨p, q, hpq⟩
        obtain ⟨rfl, rfl, rfl⟩ : p = [] ∧ pat = [] ∧ q = [] := by
          simpa using hpq.symm
        exact ⟨[], by simp⟩
  | cons c rest ih =>
      simp only [hasSeq, Bool.or_eq_true, startsWithSeq_iff, ih]
      constructor
      · rintro (⟨q, hq⟩ | ⟨p, q, hpq⟩)
        · exact ⟨[], q, by simpa using hq⟩
        · exact ⟨c :: p, q, by simp [hpq]⟩
      · rintro ⟨p, q, hpq⟩
        cases p with
        | nil => exact Or.inl ⟨q, by simpa using hpq⟩
        | cons x p =>
            rcases List.cons.injEq .. ▸ hpq with ⟨rfl, htl⟩
            exact Or.inr ⟨p, q, by simpa using htl⟩

theorem replaceNewlines_data (s : String) :
    (replaceNewlines s).data = s.data.map (fun c => if c = '\n' then ' ' else c) :=
  rfl

theorem noNewline_replaceNewlines (s : String) :
    noNewlineB (replaceNewlines s) = true := by
  simp only [noNewlineB, Bool.not_eq_true', List.any_eq_false,
    replaceNewlines_data]
  intro c hc
  rcases List.mem_map.mp hc with ⟨x, _, hx⟩
  by_cases hxn : x = '\n'
  · simp [hxn] at hx
    simp [← hx]
  · simp [hxn] at hx
    simp [← hx, hxn]

theorem map_newline_id {l : List Char} (h : ∀ c ∈ l, c ≠ '\n') :
    l.map (fun c => if c = '\n' then ' ' else c) = l := by
  induction l with
  | nil => rfl
  | cons c rest ih =>
      simp only [List.map_cons, List.cons.injEq]
      exact ⟨if_neg (h c (by simp)), ih fun x hx => h x (by simp [hx])⟩

theorem getKey_setKey_self (r : LogRecord) (k : String) (v : SVal) :
    getKey (setKey r k v) k = some v := by
  induction r with
  | nil => simp [setKey, getKey]
  | cons kv rest ih =>
      obtain ⟨k', v'⟩ := kv
      by_cases h : k' = k
      · simp [setKey, getKey, h]
      · simp [setKey, getKey, h, ih]

theorem getKey_setKey_ne (r : LogRecord) {k k' : String} (h : k' ≠ k)
    (v : SVal) : getKey (setKey r k v) k' = getKey r k' := by
  have hk : k ≠ k' := fun hh => h hh.symm
  induction r with
  | nil => simp [setKey, getKey, hk]
  | cons kv rest ih =>
      obtain ⟨k0, v0⟩ := kv
      by_cases h0 : k0 = k
      · subst h0
        simp [setKey, getKey, hk]
      · simp [setKey, getKey, h0, ih]

theorem getKey_assignFields_not_mem {fs : List (String × SVal)} {k : String}
    (h : k ∉ fs.map Prod.fst) (base : LogRecord) :
    getKey (assignFields base fs) k = getKey base k := by
  induction fs generalizing base with
  | nil => simp [assignFields]
  | cons kv rest ih =>
      obtain ⟨k0, v0⟩ := kv
      simp only [List.map_cons, List.mem_cons, not_or] at h
      have hstep : assignFields base ((k0, v0) :: rest)
          = assignFields (setKey base k0 v0) rest := by
        simp [assignFields]
      rw [hstep, ih h.2, getKey_setKey_ne _ h.1]

theorem getKey_assignFields_mem {fs : List (String × SVal)}
    (hnd : (fs.map Prod.fst).Nodup) {k : String} {v : SVal}
    (hmem : (k, v) ∈ fs) (base : LogRecord) :
    getKey (assignFields base fs) k = some v := by
  induction fs generalizing base with
  | nil => simp at hmem
  | cons kv rest ih =>
      obtain ⟨k0, v0⟩ := kv
      simp only [List.map_cons, List.nodup_cons] at hnd
      have hstep : assignFields base ((k0, v0) :: rest)
          = assignFields (setKey base k0 v0) rest := by
        simp [assignFields]
      rcases List.mem_cons.mp hmem with heq | htl
      · obtain ⟨rfl, rfl⟩ := Prod.mk.injEq .. ▸ heq
        have hk : k ∉ rest.map Prod.fst := by simpa using hnd.1
        rw [hstep, getKey_assignFields_not_mem hk, getKey_setKey_self]
      · rw [hstep]
        exact ih hnd.2 htl _

theorem subset_sanitizeElems_seen (H : Heap) :
    ∀ (vs : List JSVal) (seen : Finset Nat),
      seen ⊆ (sanitizeElems H seen vs).2 := by
  intro vs
  induction vs with
  | nil =>
      intro seen
      simp [sanitizeElems]
  | cons v rest ih =>
      intro seen
      rw [sanitizeElems]
      exact Finset.subset_union_left.trans (ih _)

theorem subset_sanitizeFields_seen (H : Heap) :
    ∀ (fs : List (String × JSVal)) (seen : Finset Nat),
      seen ⊆ (sanitizeFields H seen fs).2 := by
  intro fs
  induction fs with
  | nil =>
      intro seen
      simp [sanitizeFields]
  | cons kv rest ih =>
      intro seen
      obtain ⟨k, v⟩ := kv
      rw [sanitizeFields]
      exact Finset.subset_union_left.trans (ih _)

theorem subset_sanitizeValue_seen (H : Heap) (seen : Finset Nat) (v : JSVal) :
    seen ⊆ (sanitizeValue H seen v).2 := by
  cases v with
  | str s => simp [sanitizeValue]
  | num n => simp [sanitizeValue]
  | bool b => simp [sanitizeValue]
  | null => simp [sanitizeValue]
  | undef => simp [sanitizeValue]
  | fn src => simp [sanitizeValue]
  | err n m st => simp [sanitizeValue]
  | ref a =>
      by_cases ha : a ∈ seen
      · simp [sanitizeValue, ha]
      · simp only [sanitizeValue, dif_neg ha]
        split
        all_goals
          first
          | exact Finset.Subset.refl _
          | exact (Finset.subset_insert a seen).trans
              (subset_sanitizeElems_seen H _ _)
          | exact (Finset.subset_insert a seen).trans
              (subset_sanitizeFields_seen H _ _)

theorem union_sanitizeValue_seen (H : Heap) (seen : Finset Nat) (v : JSVal) :
    seen ∪ (sanitizeValue H seen v).2 = (sanitizeValue H seen v).2 :=
  Finset.union_eq_right.mpr (subset_sanitizeValue_seen H seen v)

theorem sanitizeValue_ref_seen {H : Heap} {seen : Finset Nat} {a : Nat}
    (ha : a ∈ seen) :
    sanitizeValue H seen (.ref a) = (.str "[Circular]", seen) := by
  simp [sanitizeValue, ha]

theorem sanitizeValue_ref_none {H : Heap} {seen : Finset Nat} {a : Nat}
    (ha : a ∉ seen) (hl : heapLookup H a = none) :
    sanitizeValue H seen (.ref a) = (.undef, seen) := by
  simp only [sanitizeValue, dif_neg ha]
  split <;> simp_all

theorem sanitizeValue_ref_arr {H : Heap} {seen : Finset Nat} {a : Nat}
    {elems : List JSVal} (ha : a ∉ seen)
    (hl : heapLookup H a = some (.arr elems)) :
    sanitizeValue H seen (.ref a)
      = (.arr (sanitizeElems H (insert a seen) elems).1,
         (sanitizeElems H (insert a seen) elems).2) := by
  simp only [sanitizeValue, dif_neg ha]
  split <;> simp_all

theorem sanitizeValue_ref_obj {H : Heap} {seen : Finset Nat} {a : Nat}
    {fields : List (String × JSVal)} (ha : a ∉ seen)
    (hl : heapLookup H a = some (.obj fields)) :
    sanitizeValue H seen (.ref a)
      = (.obj (assignFields [] (sanitizeFields H (insert a seen) fields).1),
         (sanitizeFields H (insert a seen) fields).2) := by
  simp only [sanitizeValue, dif_neg ha]
  split <;> simp_all

theorem sanitizeElems_cons (H : Heap) (seen : Finset Nat) (v : JSVal)
    (vs : List JSVal) :
    sanitizeElems H seen (v :: vs)
      = ((sanitizeValue H seen v).1
           :: (sanitizeElems H (sanitizeValue H seen v).2 vs).1,
         (sanitizeElems H (sanitizeValue H seen v).2 vs).2) := by
  simp only [sanitizeElems]
  rw [union_sanitizeValue_seen]

theorem sanitizeFields_cons (H : Heap) (seen : Finset Nat) (k : String)
    (v : JSVal) (fs : List (String × JSVal)) :
    sanitizeFields H seen ((k, v) :: fs)
      = ((k, (sanitizeValue H seen v).1)
           :: (sanitizeFields H (sanitizeValue H seen v).2 fs).1,
         (sanitizeFields H (sanitizeValue H seen v).2 fs).2) := by
  simp only [sanitizeFields]
  rw [union_sanitizeValue_seen]

theorem funFreeProps_setKey {acc : List (String × SVal)} {v : SVal}
    (ha : funFreeProps acc = true) (hv : v.funFree = true) (k : String) :
    funFreeProps (setKey acc k v) = true := by
  induction acc with
  | nil => simp [setKey, funFreeProps, hv]
  | cons kv rest ih =>
      obtain ⟨k0, v0⟩ := kv
      simp only [funFreeProps, Bool.and_eq_true] at ha
      by_cases h : k0 = k
      · simp [setKey, h, funFreeProps, hv, ha.2]
      · simp [setKey, h, funFreeProps, ha.1, ih ha.2]

theorem errFreeProps_setKey {acc : List (String × SVal)} {v : SVal}
    (ha : errFreeProps acc = true) (hv : v.errFree = true) (k : String) :
    errFreeProps (setKey acc k v) = true := by
  induction acc with
  | nil => simp [setKey, errFreeProps, hv]
  | cons kv rest ih =>
      obtain ⟨k0, v0⟩ := kv
      simp only [errFreeProps, Bool.and_eq_true] at ha
      by_cases h : k0 = k
      · simp [setKey, h, errFreeProps, hv, ha.2]
      · simp [setKey, h, errFreeProps, ha.1, ih ha.2]

theorem funFreeProps_assignFields {fs : List (String × SVal)}
    (hfs : funFreeProps fs = true) :
    ∀ base, funFreeProps base = true
      → funFreeProps (assignFields base fs) = true := by
  induction fs with
  | nil =>
      intro base hb
      simpa [assignFields] using hb
  | cons kv rest ih =>
      obtain ⟨k0, v0⟩ := kv
      simp only [funFreeProps, Bool.and_eq_true] at hfs
      intro base hb
      have hstep : assignFields base ((k0, v0) :: rest)
          = assignFields (setKey base k0 v0) rest := by
        simp [assignFields]
      rw [hstep]
      exact ih hfs.2 _ (funFreeProps_setKey hb hfs.1 k0)

theorem errFreeProps_assignFields {fs : List (String × SVal)}
    (hfs : errFreeProps fs = true) :
    ∀ base, errFreeProps base = true
      → errFreeProps (assignFields base fs) = true := by
  induction fs with
  | nil =>
      intro base hb
      simpa [assignFields] using hb
  | cons kv rest ih =>
      obtain ⟨k0, v0⟩ := kv
      simp only [errFreeProps, Bool.and_eq_true] at hfs
      intro base hb
      have hstep : assignFields base ((k0, v0) :: rest)
          = assignFields (setKey base k0 v0) rest := by
        simp [assignFields]
      rw [hstep]
      exact ih hfs.2 _ (errFreeProps_setKey hb hfs.1 k0)

/-- The joint guarantee of the sanitization pipeline: no function value and
no `Error` instance occurs anywhere in any output, at any recursion stage. -/
theorem sanitize_clean (H : Heap) :
    (∀ seen v, (sanitizeValue H seen v).1.funFree = true
       ∧ (sanitizeValue H seen v).1.errFree = true)
    ∧ (∀ seen fs, funFreeProps (sanitizeFields H seen fs).1 = true
       ∧ errFreeProps (sanitizeFields H seen fs).1 = true)
    ∧ (∀ seen vs, funFreeElems (sanitizeElems H seen vs).1 = true
       ∧ errFreeElems (sanitizeElems H seen vs).1 = true) := by
  apply sanitizeValue.mutual_induct H
  · intro seen s
    simp [sanitizeValue, SVal.funFree, SVal.errFree]
  · intro seen n
    simp [sanitizeValue, SVal.funFree, SVal.errFree]
  · intro seen b
    simp [sanitizeValue, SVal.funFree, SVal.errFree]
  · intro seen
    simp [sanitizeValue, SVal.funFree, SVal.errFree]
  · intro seen
    simp [sanitizeValue, SVal.funFree, SVal.errFree]
  · intro seen src
    simp [sanitizeValue, SVal.funFree, SVal.errFree]
  · intro seen n m st
    simp [sanitizeValue, SVal.funFree, SVal.errFree, funFreeProps,
      errFreeProps]
  · intro seen a ha
    simp [sanitizeValue_ref_seen ha, SVal.funFree, SVal.errFree]
  · intro seen a ha hl
    simp [sanitizeValue_ref_none ha hl, SVal.funFree, SVal.errFree]
  · intro seen a ha elems hl ih
    rw [sanitizeValue_ref_arr ha hl]
    simpa [SVal.funFree, SVal.errFree] using ih
  · intro seen a ha fields hl ih
    rw [sanitizeValue_ref_obj ha hl]
    simp only [SVal.funFree, SVal.errFree]
    exact ⟨funFreeProps_assignFields ih.1 [] rfl,
      errFreeProps_assignFields ih.2 [] rfl⟩
  · intro seen
    simp [sanitizeFields, funFreeProps, errFreeProps]
  · intro seen k v rest r ihv _ ihrest
    rw [show seen ∪ r.2 = (sanitizeValue H seen v).2 from
      union_sanitizeValue_seen H seen v] at ihrest
    rw [sanitizeFields_cons]
    simp only [funFreeProps, errFreeProps, Bool.and_eq_true]
    exact ⟨⟨ihv.1, ihrest.1⟩, ⟨ihv.2, ihrest.2⟩⟩
  · intro seen
    simp [sanitizeElems, funFreeElems, errFreeElems]
  · intro seen v rest r ihv _ ihrest
    rw [show seen ∪ r.2 = (sanitizeValue H seen v).2 from
      union_sanitizeValue_seen H seen v] at ihrest
    rw [sanitizeElems_cons]
    simp only [funFreeElems, errFreeElems, Bool.and_eq_true]
    exact ⟨⟨ihv.1, ihrest.1⟩, ⟨ihv.2, ihrest.2⟩⟩

theorem insert_union_Ico {seen : Finset Nat} {n m : Nat} (h : n < m) :
    insert n seen ∪ Finset.Ico (n + 1) m = seen ∪ Finset.Ico n m := by
  ext x
  simp only [Finset.mem_union, Finset.mem_insert, Finset.mem_Ico]
  constructor
  · rintro ((rfl | hx) | ⟨h1, h2⟩)
    · exact Or.inr ⟨le_refl _, h⟩
    · exact Or.inl hx
    · exact Or.inr ⟨by omega, h2⟩
  · rintro (hx | ⟨h1, h2⟩)
    · exact Or.inl (Or.inr hx)
    · by_cases hxn : x = n
      · exact Or.inl (Or.inl hxn)
      · exact Or.inr ⟨by omega, h2⟩

theorem union_Ico_union {seen : Finset Nat} {n m k : Nat} (h1 : n ≤ m)
    (h2 : m ≤ k) :
    (seen ∪ Finset.Ico n m) ∪ Finset.Ico m k = seen ∪ Finset.Ico n k := by
  rw [Finset.union_assoc, Finset.Ico_union_Ico_eq_Ico h1 h2]

theorem setKey_not_mem {base : LogRecord} {k : String}
    (h : k ∉ base.map Prod.fst) (v : SVal) :
    setKey base k v = base ++ [(k, v)] := by
  induction base with
  | nil => simp [setKey]
  | cons kv rest ih =>
      obtain ⟨k0, v0⟩ := kv
      simp only [List.map_cons, List.mem_cons, not_or] at h
      have hk0 : ¬k0 = k := fun hh => h.1 hh.symm
      simp [setKey, hk0, ih h.2]

theorem assignFields_of_nodup :
    ∀ (fs : List (String × SVal)) (base : LogRecord),
      (∀ k ∈ fs.map Prod.fst, k ∉ base.map Prod.fst) →
      (fs.map Prod.fst).Nodup → assignFields base fs = base ++ fs := by
  intro fs
  induction fs with
  | nil =>
      intro base _ _
      simp [assignFields]
  | cons kv rest ih =>
      obtain ⟨k0, v0⟩ := kv
      intro base hdisj hnd
      simp only [List.map_cons, List.nodup_cons] at hnd
      have hk0 : k0 ∉ base.map Prod.fst := hdisj k0 (by simp)
      have hstep : assignFields base ((k0, v0) :: rest)
          = assignFields (setKey base k0 v0) rest := by
        simp [assignFields]
      rw [hstep, setKey_not_mem hk0]
      rw [ih (base ++ [(k0, v0)])]
      · simp
      · intro k hkmem
        simp only [List.map_append, List.mem_append, not_or]
        refine ⟨hdisj k (by simp [hkmem]), ?_⟩
        intro hk
        simp only [List.map_cons, List.map_nil, List.mem_singleton] at hk
        exact hnd.1 (hk ▸ hkmem)
      · exact hnd.2

theorem assignFields_nil_of_nodup {fs : List (String × SVal)}
    (hnd : (fs.map Prod.fst).Nodup) : assignFields [] fs = fs := by
  simpa using assignFields_of_nodup fs [] (by simp) hnd

theorem allocTreeProps_keys (fs : List (String × SVal)) :
    ∀ n, (allocTreeProps fs n).val.map Prod.fst = fs.map Prod.fst := by
  induction fs with
  | nil =>
      intro n
      simp [allocTreeProps]
  | cons kv rest ih =>
      obtain ⟨k, v⟩ := kv
      intro n
      simp [allocTreeProps, ih]

theorem heapLookup_of_nodup_mem {H : Heap} {a : Nat} {o : HeapObj}
    (hnd : (H.map Prod.fst).Nodup) (hmem : (a, o) ∈ H) :
    heapLookup H a = some o := by
  induction H with
  | nil => simp at hmem
  | cons p rest ih =>
      obtain ⟨b, o'⟩ := p
      simp only [List.map_cons, List.nodup_cons] at hnd
      rcases List.mem_cons.mp hmem with heq | htl
      · obtain ⟨rfl, rfl⟩ := Prod.mk.injEq .. ▸ heq
        simp [heapLookup]
      · have hab : a ≠ b := by
          intro hh
          subst hh
          exact hnd.1 (List.mem_map.mpr ⟨(a, o), htl, rfl⟩)
        simp [heapLookup, hab, ih hnd.2 htl]

/-- Address discipline of `allocTree`: the next free address never
decreases, every fragment address lies in `[n, next)`, and fragment
addresses are pairwise distinct. -/
theorem allocTree_meta :
    (∀ (s : SVal) (n : Nat), n ≤ (allocTree s n).next
       ∧ (∀ p ∈ (allocTree s n).frag,
            n ≤ p.1 ∧ p.1 < (allocTree s n).next)
       ∧ ((allocTree s n).frag.map Prod.fst).Nodup)
    ∧ (∀ (fs : List (String × SVal)) (n : Nat),
         n ≤ (allocTreeProps fs n).next
       ∧ (∀ p ∈ (allocTreeProps fs n).frag,
            n ≤ p.1 ∧ p.1 < (allocTreeProps fs n).next)
       ∧ ((allocTreeProps fs n).frag.map Prod.fst).Nodup)
    ∧ (∀ (es : List SVal) (n : Nat),
         n ≤ (allocTreeElems es n).next
       ∧ (∀ p ∈ (allocTreeElems es n).frag,
            n ≤ p.1 ∧ p.1 < (allocTreeElems es n).next)
       ∧ ((allocTreeElems es n).frag.map Prod.fst).Nodup) := by
  apply allocTree.mutual_induct
  · intro s n
    simp [allocTree]
  · intro m n
    simp [allocTree]
  · intro b n
    simp [allocTree]
  · intro n
    simp [allocTree]
  · intro n
    simp [allocTree]
  · intro src n
    simp [allocTree]
  · intro a b c n
    simp [allocTree]
  · intro es n ih
    obtain ⟨ihnext, ihrange, ihnd⟩ := ih
    refine ⟨?_, ?_, ?_⟩
    · simp only [allocTree]
      omega
    · intro p hp
      simp only [allocTree] at hp ⊢
      rcases List.mem_cons.mp hp with heq | htl
      · subst heq
        simp only []
        omega
      · have := ihrange p htl
        omega
    · simp only [allocTree, List.map_cons, List.nodup_cons]
      refine ⟨?_, ihnd⟩
      intro hmem
      rcases List.mem_map.mp hmem with ⟨p, hp, hpa⟩
      have := ihrange p hp
      omega
  · intro fs n ih
    obtain ⟨ihnext, ihrange, ihnd⟩ := ih
    refine ⟨?_, ?_, ?_⟩
    · simp only [allocTree]
      omega
    · intro p hp
      simp only [allocTree] at hp ⊢
      rcases List.mem_cons.mp hp with heq | htl
      · subst heq
        simp only []
        omega
      · have := ihrange p htl
        omega
    · simp only [allocTree, List.map_cons, List.nodup_cons]
      refine ⟨?_, ihnd⟩
      intro hmem
      rcases List.mem_map.mp hmem with ⟨p, hp, hpa⟩
      have := ihrange p hp
      omega
  · intro n
    simp [allocTreeElems]
  · intro v vs n r ihv ihvs
    have hr : r = allocTree v n := rfl
    rw [hr] at ihvs
    obtain ⟨ihvnext, ihvrange, ihvnd⟩ := ihv
    obtain ⟨ihsnext, ihsrange, ihsnd⟩ := ihvs
    refine ⟨?_, ?_, ?_⟩
    · simp only [allocTreeElems]
      omega
    · intro p hp
      simp only [allocTreeElems, List.mem_append] at hp ⊢
      rcases hp with hl | hr
      · have := ihvrange p hl
        omega
      · have := ihsrange p hr
        omega
    · simp only [allocTreeElems, List.map_append]
      apply List.Nodup.append ihvnd ihsnd
      intro a hal har
      rcases List.mem_map.mp hal with ⟨p, hp, rfl⟩
      rcases List.mem_map.mp har with ⟨q, hq, hqa⟩
      have h1 := ihvrange p hp
      have h2 := ihsrange q hq
      omega
  · intro n
    simp [allocTreeProps]
  · intro k v fs n r ihv ihfs
    have hr : r = allocTree v n := rfl
    rw [hr] at ihfs
    obtain ⟨ihvnext, ihvrange, ihvnd⟩ := ihv
    obtain ⟨ihsnext, ihsrange, ihsnd⟩ := ihfs
    refine ⟨?_, ?_, ?_⟩
    · simp only [allocTreeProps]
      omega
    · intro p hp
      simp only [allocTreeProps, List.mem_append] at hp ⊢
      rcases hp with hl | hr
      · have := ihvrange p hl
        omega
      · have := ihsrange p hr
        omega
    · simp only [allocTreeProps, List.map_append]
      apply List.Nodup.append ihvnd ihsnd
      intro a hal har
      rcases List.mem_map.mp hal with ⟨p, hp, rfl⟩
      rcases List.mem_map.mp har with ⟨q, hq, hqa⟩
      have h1 := ihvrange p hp
      have h2 := ihsrange q hq
      omega

/-- Sanitization is the identity on tree-shaped plain data, at every
recursion stage: sanitizing the heap layout of a function-free, error-free
value tree with distinct object keys yields the tree back, marking exactly
the fresh addresses as seen. -/
theorem allocTree_roundTrip :
    (∀ (s : SVal) (n : Nat) (H : Heap) (seen : Finset Nat),
       (∀ p ∈ (allocTree s n).frag, heapLookup H p.1 = some p.2) →
       (∀ a, n ≤ a → a < (allocTree s n).next → a ∉ seen) →
       s.funFree = true → s.errFree = true → s.wfKeys = true →
       sanitizeValue H seen (allocTree s n).val
         = (s, seen ∪ Finset.Ico n (allocTree s n).next))
    ∧ (∀ (fs : List (String × SVal)) (n : Nat) (H : Heap) (seen : Finset Nat),
       (∀ p ∈ (allocTreeProps fs n).frag, heapLookup H p.1 = some p.2) →
       (∀ a, n ≤ a → a < (allocTreeProps fs n).next → a ∉ seen) →
       funFreeProps fs = true → errFreeProps fs = true →
       wfKeysProps fs = true →
       sanitizeFields H seen (allocTreeProps fs n).val
         = (fs, seen ∪ Finset.Ico n (allocTreeProps fs n).next))
    ∧ (∀ (es : List SVal) (n : Nat) (H : Heap) (seen : Finset Nat),
       (∀ p ∈ (allocTreeElems es n).frag, heapLookup H p.1 = some p.2) →
       (∀ a, n ≤ a → a < (allocTreeElems es n).next → a ∉ seen) →
       funFreeElems es = true → errFreeElems es = true →
       wfKeysElems es = true →
       sanitizeElems H seen (allocTreeElems es n).val
         = (es, seen ∪ Finset.Ico n (allocTreeElems es n).next)) := by
  apply allocTree.mutual_induct
  · intro s n H seen _ _ _ _ _
    simp [allocTree, sanitizeValue]
  · intro m n H seen _ _ _ _ _
    simp [allocTree, sanitizeValue]
  · intro b n H seen _ _ _ _ _
    simp [allocTree, sanitizeValue]
  · intro n H seen _ _ _ _ _
    simp [allocTree, sanitizeValue]
  · intro n H seen _ _ _ _ _
    simp [allocTree, sanitizeValue]
  · intro src n H seen _ _ hfun _ _
    simp [SVal.funFree] at hfun
  · intro a b c n H seen _ _ _ herr _
    simp [SVal.errFree] at herr
  · intro es n ih H seen hlook hfresh hfun herr hwf
    simp only [SVal.funFree] at hfun
    simp only [SVal.errFree] at herr
    simp only [SVal.wfKeys] at hwf
    have hnext : n + 1 ≤ (allocTreeElems es (n + 1)).next :=
      (allocTree_meta.2.2 es (n + 1)).1
    simp only [allocTree] at hlook hfresh ⊢
    have hn : n ∉ seen := hfresh n (le_refl n) (by omega)
    have hlookn : heapLookup H n = some (.arr (allocTreeElems es (n + 1)).val) :=
      hlook _ (List.mem_cons_self _ _)
    rw [sanitizeValue_ref_arr hn hlookn]
    rw [ih H (insert n seen)
      (fun p hp => hlook p (List.mem_cons_of_mem _ hp))
      (fun a ha1 ha2 => by
        simp only [Finset.mem_insert, not_or]
        exact ⟨by omega, hfresh a (by omega) ha2⟩)
      hfun herr hwf]
    rw [insert_union_Ico (by omega)]
  · intro fs n ih H seen hlook hfresh hfun herr hwf
    simp only [SVal.funFree] at hfun
    simp only [SVal.errFree] at herr
    simp only [SVal.wfKeys, Bool.and_eq_true, decide_eq_true_eq] at hwf
    have hnext : n + 1 ≤ (allocTreeProps fs (n + 1)).next :=
      (allocTree_meta.2.1 fs (n + 1)).1
    simp only [allocTree] at hlook hfresh ⊢
    have hn : n ∉ seen := hfresh n (le_refl n) (by omega)
    have hlookn : heapLookup H n = some (.obj (allocTreeProps fs (n + 1)).val) :=
      hlook _ (List.mem_cons_self _ _)
    rw [sanitizeValue_ref_obj hn hlookn]
    rw [ih H (insert n seen)
      (fun p hp => hlook p (List.mem_cons_of_mem _ hp))
      (fun a ha1 ha2 => by
        simp only [Finset.mem_insert, not_or]
        exact ⟨by omega, hfresh a (by omega) ha2⟩)
      hfun herr hwf.2]
    rw [assignFields_nil_of_nodup hwf.1]
    rw [insert_union_Ico (by omega)]
  · intro n H seen _ _ _ _ _
    simp [allocTreeElems, sanitizeElems]
  · intro v vs n r ihv ihvs H seen hlook hfresh hfun herr hwf
    have hr : r = allocTree v n := rfl
    rw [hr] at ihvs
    simp only [funFreeElems, Bool.and_eq_true] at hfun
    simp only [errFreeElems, Bool.and_eq_true] at herr
    simp only [wfKeysElems, Bool.and_eq_true] at hwf
    have hv1 : n ≤ (allocTree v n).next := (allocTree_meta.1 v n).1
    have hv2 : (allocTree v n).next
        ≤ (allocTreeElems vs (allocTree v n).next).next :=
      (allocTree_meta.2.2 vs (allocTree v n).next).1
    simp only [allocTreeElems] at hlook hfresh ⊢
    rw [sanitizeElems_cons]
    rw [ihv H seen
      (fun p hp => hlook p (List.mem_append_left _ hp))
      (fun a ha1 ha2 => hfresh a ha1 (by omega))
      hfun.1 herr.1 hwf.1]
    rw [ihvs H (seen ∪ Finset.Ico n (allocTree v n).next)
      (fun p hp => hlook p (List.mem_append_right _ hp))
      (fun a ha1 ha2 => by
        simp only [Finset.mem_union, Finset.mem_Ico, not_or]
        exact ⟨hfresh a (by omega) ha2, by omega⟩)
      hfun.2 herr.2 hwf.2]
    rw [union_Ico_union hv1 hv2]
  · intro n H seen _ _ _ _ _
    simp [allocTreeProps, sanitizeFields]
  · intro k v fs n r ihv ihfs H seen hlook hfresh hfun herr hwf
    have hr : r = allocTree v n := rfl
    rw [hr] at ihfs
    simp only [funFreeProps, Bool.and_eq_true] at hfun
    simp only [errFreeProps, Bool.and_eq_true] at herr
    simp only [wfKeysProps, Bool.and_eq_true] at hwf
    have hv1 : n ≤ (allocTree v n).next := (allocTree_meta.1 v n).1
    have hv2 : (allocTree v n).next
        ≤ (allocTreeProps fs (allocTree v n).next).next :=
      (allocTree_meta.2.1 fs (allocTree v n).next).1
    simp only [allocTreeProps] at hlook hfresh ⊢
    rw [sanitizeFields_cons]
    rw [ihv H seen
      (fun p hp => hlook p (List.mem_append_left _ hp))
      (fun a ha1 ha2 => hfresh a ha1 (by omega))
      hfun.1 herr.1 hwf.1]
    rw [ihfs H (seen ∪ Finset.Ico n (allocTree v n).next)
      (fun p hp => hlook p (List.mem_append_right _ hp))
      (fun a ha1 ha2 => by
        simp only [Finset.mem_union, Finset.mem_Ico, not_or]
        exact ⟨hfresh a (by omega) ha2, by omega⟩)
      hfun.2 herr.2 hwf.2]
    rw [union_Ico_union hv1 hv2]

theorem mem_keys_setKey {r : LogRecord} {k k' : String} {v : SVal} :
    k' ∈ (setKey r k v).map Prod.fst ↔ k' ∈ r.map Prod.fst ∨ k' = k := by
  induction r with
  | nil => simp [setKey]
  | cons kv rest ih =>
      obtain ⟨k0, v0⟩ := kv
      by_cases h : k0 = k
      · subst h
        simp [setKey]
        tauto
      · simp [setKey, h, ih]
        tauto

theorem nodup_setKey {r : LogRecord} (hnd : (r.map Prod.fst).Nodup)
    (k : String) (v : SVal) : ((setKey r k v).map Prod.fst).Nodup := by
  induction r with
  | nil => simp [setKey]
  | cons kv rest ih =>
      obtain ⟨k0, v0⟩ := kv
      simp only [List.map_cons, List.nodup_cons] at hnd
      by_cases h : k0 = k
      · subst h
        have hstep : setKey ((k0, v0) :: rest) k0 v = (k0, v) :: rest := by
          simp [setKey]
        rw [hstep]
        simp only [List.map_cons, List.nodup_cons]
        exact ⟨hnd.1, hnd.2⟩
      · simp only [setKey, if_neg h, List.map_cons, List.nodup_cons]
        refine ⟨?_, ih hnd.2⟩
        intro hmem
        rcases mem_keys_setKey.mp hmem with hin | heq
        · exact hnd.1 hin
        · exact h heq

theorem nodup_assignFields {base : LogRecord}
    (hnd : (base.map Prod.fst).Nodup) (fs : List (String × SVal)) :
    ((assignFields base fs).map Prod.fst).Nodup := by
  induction fs generalizing base with
  | nil => simpa [assignFields] using hnd
  | cons kv rest ih =>
      obtain ⟨k0, v0⟩ := kv
      have hstep : assignFields base ((k0, v0) :: rest)
          = assignFields (setKey base k0 v0) rest := by
        simp [assignFields]
      rw [hstep]
      exact ih (nodup_setKey hnd k0 v0)

theorem getKey_some_mem {r : LogRecord} {k : String} {val : SVal}
    (h : getKey r k = some val) : (k, val) ∈ r := by
  induction r with
  | nil => simp [getKey] at h
  | cons kv rest ih =>
      obtain ⟨k0, v0⟩ := kv
      by_cases h0 : k0 = k
      · subst h0
        have hk : getKey ((k0, v0) :: rest) k0 = some v0 := by
          simp [getKey]
        rw [hk] at h
        obtain rfl : v0 = val := by injection h
        exact List.mem_cons_self _ _
      · simp only [getKey, if_neg h0] at h
        exact List.mem_cons_of_mem _ (ih h)

theorem getKey_none_not_mem {r : LogRecord} {k : String}
    (h : getKey r k = none) : k ∉ r.map Prod.fst := by
  induction r with
  | nil => simp
  | cons kv rest ih =>
      obtain ⟨k0, v0⟩ := kv
      by_cases h0 : k0 = k
      · simp [getKey, h0] at h
      · simp only [getKey, if_neg h0] at h
        simp only [List.map_cons, List.mem_cons, not_or]
        exact ⟨fun hh => h0 hh.symm, ih h⟩

theorem noNewlineB_iff {s : String} :
    noNewlineB s = true ↔ ∀ c ∈ s.data, c ≠ '\n' := by
  simp [noNewlineB, List.any_eq_false]

/-- The top level of any sanitized object has pairwise-distinct keys:
every object the pipeline builds comes from `result[key] = ...`
assignments (or is the three-key error mapping). -/
theorem sanitizeObject_obj_nodup {H : Heap} {v : JSVal}
    {fields : List (String × SVal)} (h : sanitizeObject H v = .obj fields) :
    (fields.map Prod.fst).Nodup := by
  cases v with
  | str s => simp [sanitizeObject, sanitizeValue] at h
  | num n => simp [sanitizeObject, sanitizeValue] at h
  | bool b => simp [sanitizeObject, sanitizeValue] at h
  | null => simp [sanitizeObject, sanitizeValue] at h
  | undef => simp [sanitizeObject, sanitizeValue] at h
  | fn src => simp [sanitizeObject, sanitizeValue] at h
  | err n m st =>
      simp only [sanitizeObject, sanitizeValue, SVal.obj.injEq] at h
      rw [← h]
      simp
  | ref a =>
      have ha : a ∉ (∅ : Finset Nat) := Finset.not_mem_empty a
      rcases hl : heapLookup H a with _ | o
      · simp only [sanitizeObject, sanitizeValue_ref_none ha hl] at h
        exact SVal.noConfusion h
      · cases o with
        | arr elems =>
            simp only [sanitizeObject, sanitizeValue_ref_arr ha hl] at h
            exact SVal.noConfusion h
        | obj fs =>
            simp only [sanitizeObject, sanitizeValue_ref_obj ha hl,
              SVal.obj.injEq] at h
            rw [← h]
            exact nodup_assignFields (by simp) _

/-- A cycle-free two-path heap: address 1 holds `{b: o, c: o}` where both
properties reference the same empty object `o` at address 0. -/
def dagHeap : Heap := [(0, .obj []), (1, .obj [("b", .ref 0), ("c", .ref 0)])]

theorem dag_sanitize_eval :
    sanitizeObject dagHeap (.ref 1)
      = .obj [("b", .obj []), ("c", .str "[Circular]")] := by
  simp [sanitizeObject, sanitizeValue, sanitizeFields, heapLookup, dagHeap,
    assignFields, setKey]

theorem sanitize_single_str_obj (a : Nat) (k s : String) :
    sanitizeObject [(a, .obj [(k, .str s)])] (.ref a) = .obj [(k, .str s)] := by
  have hl : heapLookup [(a, HeapObj.obj [(k, JSVal.str s)])] a
      = some (.obj [(k, .str s)]) := by
    simp [heapLookup]
  simp only [sanitizeObject,
    sanitizeValue_ref_obj (Finset.not_mem_empty a) hl]
  rw [sanitizeFields_cons]
  simp [sanitizeValue, sanitizeFields, assignFields, setKey]

theorem sanitize_single_num_obj (a : Nat) (k : String) (n : Int) :
    sanitizeObject [(a, .obj [(k, .num n)])] (.ref a) = .obj [(k, .num n)] := by
  have hl : heapLookup [(a, HeapObj.obj [(k, JSVal.num n)])] a
      = some (.obj [(k, .num n)]) := by
    simp [heapLookup]
  simp only [sanitizeObject,
    sanitizeValue_ref_obj (Finset.not_mem_empty a) hl]
  rw [sanitizeFields_cons]
  simp [sanitizeValue, sanitizeFields, assignFields, setKey]

/-- C1: for every severity `S` and every Logger constructed with resolved
threshold `T`, the public method for `S` is bound to the active emitting
closure iff `T >= S` by numeric rank (ERROR=0, WARN=1, INFO=2, DEBUG=3);
when `T < S` the method is the no-op binding decided at construction, and
calling it emits nothing on either stream. -/
theorem c1_level_gating (ms : String) (env : Option String) (S : LogLevel) :
    ((mkLogger ms env).methodFor S = .active S
      ↔ S.rank ≤ (mkLogger ms env).logLevel.rank)
    ∧ ((mkLogger ms env).logLevel.rank < S.rank →
        (mkLogger ms env).methodFor S = .noOp
        ∧ ∀ ts caller input,
            invokeImpl (mkLogger ms env) ((mkLogger ms env).methodFor S)
              ts caller input = []) := by
  cases hL : parseLogLevel env <;> cases S <;>
    simp [mkLogger, Logger.methodFor, LogLevel.rank, hL, invokeImpl]

theorem c1_level_gating_witness :
    ((mkLogger "svc" none).logLevel.rank < LogLevel.DEBUG.rank)
    ∧ ((mkLogger "svc" none).methodFor .DEBUG = .noOp
       ∧ ∀ ts caller input,
           invokeImpl (mkLogger "svc" none)
             ((mkLogger "svc" none).methodFor .DEBUG) ts caller input = []) :=
  ⟨by decide, (c1_level_gating "svc" none .DEBUG).2 (by decide)⟩

/-- C2: `sanitizeObject` is a total function of the embedding — it
terminates on every input, cyclic heaps included — and its output contains
no function value and no `Error` instance; the output type is a finite
tree, so the (equally total) JSON serializer `SVal.stringify?` cannot
throw or hang on circularity. -/
theorem c2_sanitize_total_clean (H : Heap) (v : JSVal) :
    (sanitizeObject H v).funFree = true
    ∧ (sanitizeObject H v).errFree = true :=
  ⟨((sanitize_clean H).1 ∅ v).1, ((sanitize_clean H).1 ∅ v).2⟩

/-- C5: within one top-level sanitize call the seen set only grows; any
reference whose target is already in it becomes the string "[Circular]";
consequently on the cycle-free heap `dagHeap`, where one object is
reachable along two different paths, the second occurrence is replaced by
"[Circular]" even though no cycle exists. -/
theorem c5_seen_set_dag_sharing :
    (∀ (H : Heap) (seen : Finset Nat) (v : JSVal),
        seen ⊆ (sanitizeValue H seen v).2)
    ∧ (∀ (H : Heap) (seen : Finset Nat) (a : Nat), a ∈ seen →
        sanitizeValue H seen (.ref a) = (.str "[Circular]", seen))
    ∧ acyclicB dagHeap = true
    ∧ sanitizeObject dagHeap (.ref 1)
        = .obj [("b", .obj []), ("c", .str "[Circular]")] :=
  ⟨subset_sanitizeValue_seen,
   fun _ _ _ ha => sanitizeValue_ref_seen ha,
   by decide,
   dag_sanitize_eval⟩

theorem c5_seen_set_dag_sharing_witness :
    (0 : Nat) ∈ ({0} : Finset Nat)
    ∧ sanitizeValue dagHeap {0} (.ref 0) = (.str "[Circular]", {0}) :=
  ⟨by decide, c5_seen_set_dag_sharing.2.1 dagHeap {0} 0 (by decide)⟩

/-- C7: sanitizing `{a: 1, self: <self>}` terminates and replaces exactly
the self-reference with "[Circular]", leaving the sibling key unchanged. -/
theorem c7_self_reference (addr : Nat) :
    sanitizeObject [(addr, .obj [("a", .num 1), ("self", .ref addr)])]
      (.ref addr)
      = .obj [("a", .num 1), ("self", .str "[Circular]")] := by
  have hl : heapLookup [(addr, HeapObj.obj
        [("a", JSVal.num 1), ("self", JSVal.ref addr)])] addr
      = some (.obj [("a", .num 1), ("self", .ref addr)]) := by
    simp [heapLookup]
  simp only [sanitizeObject,
    sanitizeValue_ref_obj (Finset.not_mem_empty addr) hl]
  rw [sanitizeFields_cons]
  simp [sanitizeValue, sanitizeFields, assignFields, setKey,
    Finset.mem_insert_self]

/-- C9: every possible environment value resolves to a threshold of rank at
least ERROR (= 0, the enumeration's minimum), so the `error` method is
always bound active and `logComplexError`'s gate always passes: ERROR-level
logging cannot be disabled on any instance. -/
theorem c9_error_never_disabled (ms : String) (env : Option String) :
    LogLevel.ERROR.rank ≤ (parseLogLevel env).rank
    ∧ (mkLogger ms env).error = .active .ERROR
    ∧ ∀ ts caller (H : Heap) (v : JSVal),
        (logComplexError (mkLogger ms env) ts caller H v).length = 1 := by
  refine ⟨Nat.zero_le _, ?_, ?_⟩
  · simp [mkLogger, LogLevel.rank]
  · intro ts caller H v
    have herr : (mkLogger ms env).error = .active .ERROR := by
      simp [mkLogger, LogLevel.rank]
    unfold logComplexError
    rw [if_pos (show LogLevel.ERROR.rank ≤ (mkLogger ms env).logLevel.rank
      from Nat.zero_le _)]
    rw [herr]
    unfold invokeImpl
    split <;> rfl

/-- C10: sanitize maps a native `Error` to exactly the mapping
`{name, message, stack}` with the stack string kept verbatim (in
particular, a stack containing an "at " frame still contains it), and no
raw `Error` instance survives sanitization into a record. -/
theorem c10_error_to_mapping (H : Heap) (seen : Finset Nat)
    (n m st : String) (hat : strHas "at " st = true) :
    sanitizeValue H seen (.err n m st)
      = (.obj [("name", .str n), ("message", .str m), ("stack", .str st)],
         seen)
    ∧ getKey [("name", .str n), ("message", .str m), ("stack", .str st)]
        "stack" = some (.str st)
    ∧ strHas "at " st = true
    ∧ (∀ w, (sanitizeObject H w).errFree = true) :=
  ⟨by simp [sanitizeValue], by simp [getKey], hat,
   fun w => ((sanitize_clean H).1 ∅ w).2⟩

theorem c10_error_to_mapping_witness :
    strHas "at " "E: x\n    at foo (a.js:1:2)" = true
    ∧ sanitizeValue [] ∅ (.err "E" "x" "E: x\n    at foo (a.js:1:2)")
      = (.obj [("name", .str "E"), ("message", .str "x"),
          ("stack", .str "E: x\n    at foo (a.js:1:2)")], ∅) :=
  ⟨by decide,
   (c10_error_to_mapping [] ∅ "E" "x" "E: x\n    at foo (a.js:1:2)"
     (by decide)).1⟩

/-- C6: `parseLogLevel` matches the environment value case-insensitively
against `error`, `warn`, `info`, `debug`; an absent, empty, or unrecognized
value resolves to INFO without raising an error; and a constructed Logger's
threshold is exactly the value resolved at construction (the instance holds
no later reference to the environment). -/
theorem c6_parse_log_level :
    parseLogLevel none = .INFO
    ∧ parseLogLevel (some "") = .INFO
    ∧ (∀ s, parseLogLevel (some s) =
        if s.toLower = "error" then .ERROR
        else if s.toLower = "warn" then .WARN
        else if s.toLower = "info" then .INFO
        else if s.toLower = "debug" then .DEBUG
        else .INFO)
    ∧ (∀ ms env, (mkLogger ms env).logLevel = parseLogLevel env) := by
  refine ⟨rfl, ?_, ?_, fun ms env => rfl⟩
  · have h : String.toLower "" = "" := by
      rw [String.toLower, String.map_eq]
      decide
    simp [parseLogLevel, h]
  · intro s
    simp only [parseLogLevel, Option.map_some']
    split
    case _ h => rw [Option.some.injEq] at h; simp [h]
    case _ h => rw [Option.some.injEq] at h; simp [h]
    case _ h => rw [Option.some.injEq] at h; simp [h]
    case _ h => rw [Option.some.injEq] at h; simp [h]
    case _ h1 h2 h3 h4 =>
      have e1 : ¬s.toLower = "error" := fun hh => h1 (by rw [hh])
      have e2 : ¬s.toLower = "warn" := fun hh => h2 (by rw [hh])
      have e3 : ¬s.toLower = "info" := fun hh => h3 (by rw [hh])
      have e4 : ¬s.toLower = "debug" := fun hh => h4 (by rw [hh])
      simp [e1, e2, e3, e4]

theorem stringify_obj (fs : List (String × SVal)) :
    (SVal.obj fs).stringify? = some (stringifyRecord fs) := by
  simp [SVal.stringify?, stringifyRecord]

/-- The record built for a structured input whose sanitization is an
object: the five reserved keys in order, then the sanitized object's
properties assigned over them. -/
theorem formatMessage_record_eq (ms ts caller lvl : String) {H : Heap}
    {v : JSVal} {fields : List (String × SVal)}
    (hs : sanitizeObject H v = .obj fields) :
    formatMessage ms ts caller lvl (.record H v)
      = assignFields
          [("timestamp", .str ts), ("level", .str lvl),
           ("message", .str (stringifyRecord fields)),
           ("microservice", .str ms), ("caller", .str caller)] fields := by
  simp only [formatMessage, hs, stringify_obj, mergeSanitized]

/-- C3: for a structured input, every top-level key of the sanitized input
is merged into the emitted record itself (overwriting a reserved envelope
key on collision); the `message` field, unless overwritten by such a
collision, is exactly the JSON string of the sanitized input; and the
ERROR-severity emission path writes the single serialized line to the
standard error stream. -/
theorem c3_structured_merge (lg : Logger) (ts caller lvl : String)
    (H : Heap) (v : JSVal) :
    (∀ fields, sanitizeObject H v = .obj fields →
       (∀ k val, getKey fields k = some val →
          getKey (formatMessage lg.microservice ts caller lvl (.record H v)) k
            = some val)
       ∧ (getKey fields "message" = none →
            getKey (formatMessage lg.microservice ts caller lvl (.record H v))
              "message" = some (.str (stringifyRecord fields))
            ∧ (sanitizeObject H v).stringify?
                = some (stringifyRecord fields)))
    ∧ invokeImpl lg (.active .ERROR) ts caller (.record H v)
        = [(.stderr,
            stringifyRecord (formatMessage lg.microservice ts caller
              LogLevel.ERROR.levelName (.record H v)))] := by
  constructor
  · intro fields hs
    constructor
    · intro k val hk
      rw [formatMessage_record_eq lg.microservice ts caller lvl hs]
      exact getKey_assignFields_mem (sanitizeObject_obj_nodup hs)
        (getKey_some_mem hk) _
    · intro hnone
      constructor
      · rw [formatMessage_record_eq lg.microservice ts caller lvl hs]
        rw [getKey_assignFields_not_mem (getKey_none_not_mem hnone)]
        simp [getKey]
      · rw [hs, stringify_obj]
  · rfl

theorem c3_structured_merge_witness :
    getKey (formatMessage "Svc" "T" "C" "ERROR"
        (.record [(0, .obj [("code", .num 42)])] (.ref 0))) "code"
      = some (.num 42) := by
  have h := ((c3_structured_merge (mkLogger "Svc" none) "T" "C" "ERROR"
      [(0, .obj [("code", .num 42)])] (.ref 0)).1
      [("code", .num 42)] (sanitize_single_num_obj 0 "code" 42)).1
      "code" (.num 42) (by simp [getKey])
  simpa [mkLogger] using h

/-- C4 as stated is refuted by shared (DAG) data: `dagHeap`'s root is
cycle-free plain data — no functions, no errors, no address reaches
itself — yet sanitize is not the identity on it: its structural unfolding
is `{b: {}, c: {}}` while sanitize returns `{b: {}, c: "[Circular]"}`. -/
theorem c4_counterexample :
    acyclicB dagHeap = true
    ∧ plainHeapB dagHeap = true
    ∧ unfoldVal dagHeap 3 (.ref 1)
        = some (.obj [("b", .obj []), ("c", .obj [])])
    ∧ sanitizeObject dagHeap (.ref 1)
        ≠ .obj [("b", .obj []), ("c", .obj [])] := by
  refine ⟨by decide, by decide, ?_, ?_⟩
  · simp [unfoldVal, unfoldProps, unfoldElems, heapLookup, dagHeap]
  · rw [dag_sanitize_eval]
    intro hcontra
    simp at hcontra

/-- C4 amended: on tree-shaped plain data — cycle-free, no functions, no
`Error` instances, every object referenced along exactly one path, object
keys distinct — sanitize is structurally the identity (hence idempotent,
since its output is itself such data laid out afresh). -/
theorem c4_tree_identity (s : SVal) (hf : s.funFree = true)
    (he : s.errFree = true) (hw : s.wfKeys = true) :
    sanitizeObject (allocTree s 0).frag (allocTree s 0).val = s := by
  have hnd := (allocTree_meta.1 s 0).2.2
  have h := allocTree_roundTrip.1 s 0 (allocTree s 0).frag ∅
    (fun p hp => heapLookup_of_nodup_mem hnd hp)
    (fun a _ _ => Finset.not_mem_empty a)
    hf he hw
  simp only [sanitizeObject, h]

theorem c4_tree_identity_witness :
    ((SVal.obj [("a", .num 1), ("b", .arr [.str "x", .null])]).funFree = true
     ∧ (SVal.obj [("a", .num 1), ("b", .arr [.str "x", .null])]).errFree = true
     ∧ (SVal.obj [("a", .num 1), ("b", .arr [.str "x", .null])]).wfKeys = true)
    ∧ sanitizeObject
        (allocTree (SVal.obj [("a", .num 1), ("b", .arr [.str "x", .null])]) 0).frag
        (allocTree (SVal.obj [("a", .num 1), ("b", .arr [.str "x", .null])]) 0).val
      = SVal.obj [("a", .num 1), ("b", .arr [.str "x", .null])] := by
  have hf : (SVal.obj [("a", .num 1), ("b", .arr [.str "x", .null])]).funFree
      = true := by
    simp [SVal.funFree, funFreeProps, funFreeElems]
  have he : (SVal.obj [("a", .num 1), ("b", .arr [.str "x", .null])]).errFree
      = true := by
    simp [SVal.errFree, errFreeProps, errFreeElems]
  have hw : (SVal.obj [("a", .num 1), ("b", .arr [.str "x", .null])]).wfKeys
      = true := by
    simp [SVal.wfKeys, wfKeysProps, wfKeysElems]
  exact ⟨⟨hf, he, hw⟩, c4_tree_identity _ hf he hw⟩

theorem data_append (a b : String) : (a ++ b).data = a.data ++ b.data := rfl

theorem map_lit_colon :
    ": ".data.map (fun c => if c = '\n' then ' ' else c) = ": ".data := by
  decide

theorem map_lit_nl :
    "\n".data.map (fun c => if c = '\n' then ' ' else c) = [' '] := by
  decide

theorem map_lit_at :
    "at ".data.map (fun c => if c = '\n' then ' ' else c) = "at ".data := by
  decide

/-- Shape of the flattened complex-error string for a native error whose
name and message hold no newline: the name and message survive verbatim,
the newline before the stack becomes a space, and the stack is mapped
newline-to-space character-wise. -/
theorem replaceNewlines_err_parts (st : String) {n m : String}
    (hn : noNewlineB n = true) (hm : noNewlineB m = true) :
    (replaceNewlines (n ++ ": " ++ m ++ "\n" ++ st)).data
      = n.data ++ ": ".data ++ m.data ++ [' ']
          ++ st.data.map (fun c => if c = '\n' then ' ' else c) := by
  simp only [replaceNewlines_data, data_append, List.map_append]
  rw [map_newline_id (noNewlineB_iff.mp hn),
    map_newline_id (noNewlineB_iff.mp hm), map_lit_colon, map_lit_nl]

/-- C8: for every input to `logComplexError` — native `Error` or
structured record — the call emits exactly one line on the standard error
stream through the ERROR-level path; the record carries the standard
envelope, and under the key `complexError` the branch's string with every
newline flattened to a space, so it contains no raw newline character. For
a native `Error` input that string is built from
`"<name>: <message>\n<stack>"` and therefore still contains the error's
name, its message, and (when the stack held one) an "at " stack-frame
marker. -/
theorem c8_complex_error_flattening (ms : String) (env : Option String)
    (ts caller : String) (H : Heap) (v : JSVal) :
    logComplexError (mkLogger ms env) ts caller H v
      = [(.stderr, stringifyRecord (formatMessage ms ts caller "ERROR"
          (.record [(0, .obj [("complexError",
              .str (replaceNewlines (complexErrorMessage H v)))])]
            (.ref 0))))]
    ∧ getKey (formatMessage ms ts caller "ERROR"
          (.record [(0, .obj [("complexError",
              .str (replaceNewlines (complexErrorMessage H v)))])]
            (.ref 0))) "complexError"
        = some (.str (replaceNewlines (complexErrorMessage H v)))
    ∧ (∀ k, k ∈ ["timestamp", "level", "microservice", "caller"] →
        getKey (formatMessage ms ts caller "ERROR"
          (.record [(0, .obj [("complexError",
              .str (replaceNewlines (complexErrorMessage H v)))])]
            (.ref 0))) k
          = getKey [("timestamp", .str ts), ("level", .str "ERROR"),
              ("microservice", .str ms), ("caller", .str caller)] k)
    ∧ noNewlineB (replaceNewlines (complexErrorMessage H v)) = true
    ∧ (∀ n m st, noNewlineB n = true → noNewlineB m = true →
        strHas "at " st = true →
        complexErrorMessage H (.err n m st) = n ++ ": " ++ m ++ "\n" ++ st
        ∧ strHas n
            (replaceNewlines (complexErrorMessage H (.err n m st))) = true
        ∧ strHas m
            (replaceNewlines (complexErrorMessage H (.err n m st))) = true
        ∧ strHas "at "
            (replaceNewlines (complexErrorMessage H (.err n m st))) = true)
    := by
  have hsan := sanitize_single_str_obj 0 "complexError"
    (replaceNewlines (complexErrorMessage H v))
  have hrec := formatMessage_record_eq ms ts caller "ERROR" hsan
  refine ⟨?_, ?_, ?_, noNewline_replaceNewlines _, ?_⟩
  · unfold logComplexError
    rw [if_pos (show LogLevel.ERROR.rank ≤ (mkLogger ms env).logLevel.rank
      from Nat.zero_le _)]
    have herr : (mkLogger ms env).error = .active .ERROR := by
      simp [mkLogger, LogLevel.rank]
    rw [herr]
    cases v <;> rfl
  · rw [hrec]
    exact getKey_assignFields_mem (by simp) (by simp) _
  · intro k hk
    rw [hrec]
    rw [getKey_assignFields_not_mem (by
      simp only [List.map_cons, List.map_nil, List.mem_cons,
        List.not_mem_nil, or_false]
      intro hkc
      subst hkc
      simp at hk)]
    fin_cases hk <;> simp [getKey]
  · intro n m st hn hm hat
    have hmsg : complexErrorMessage H (.err n m st)
        = n ++ ": " ++ m ++ "\n" ++ st := rfl
    have hdata := replaceNewlines_err_parts st hn hm
    refine ⟨rfl, ?_, ?_, ?_⟩
    · rw [hmsg, strHas, hasSeq_iff]
      refine ⟨[], ": ".data ++ m.data ++ [' ']
        ++ st.data.map (fun c => if c = '\n' then ' ' else c), ?_⟩
      rw [hdata]
      simp [List.append_assoc]
    · rw [hmsg, strHas, hasSeq_iff]
      refine ⟨n.data ++ ": ".data, [' ']
        ++ st.data.map (fun c => if c = '\n' then ' ' else c), ?_⟩
      rw [hdata]
      simp [List.append_assoc]
    · rw [hmsg, strHas, hasSeq_iff]
      obtain ⟨p, q, hpq⟩ := hasSeq_iff.mp hat
      refine ⟨n.data ++ ": ".data ++ m.data ++ [' ']
        ++ p.map (fun c => if c = '\n' then ' ' else c),
        q.map (fun c => if c = '\n' then ' ' else c), ?_⟩
      rw [hdata, show st.data = p ++ "at ".data ++ q from hpq]
      simp only [List.map_append, map_lit_at]
      simp [List.append_assoc]

theorem c8_complex_error_flattening_witness :
    (noNewlineB "E" = true ∧ noNewlineB "x" = true
     ∧ strHas "at " "E: x\n    at f (a.js:3:5)" = true)
    ∧ strHas "at "
        (replaceNewlines (complexErrorMessage []
          (.err "E" "x" "E: x\n    at f (a.js:3:5)"))) = true
    ∧ noNewlineB
        (replaceNewlines (complexErrorMessage []
          (.err "E" "x" "E: x\n    at f (a.js:3:5)"))) = true
    ∧ noNewlineB
        (replaceNewlines (complexErrorMessage
          [(5, .obj [("k", .str "v")])] (.ref 5))) = true := by
  have h := c8_complex_error_flattening "svc" none "T" "C" []
    (.err "E" "x" "E: x\n    at f (a.js:3:5)")
  have h5 := h.2.2.2.2 "E" "x" "E: x\n    at f (a.js:3:5)"
    (by decide) (by decide) (by decide)
  have h2 := c8_complex_error_flattening "svc" none "T" "C"
    [(5, .obj [("k", .str "v")])] (.ref 5)
  exact ⟨⟨by decide, by decide, by decide⟩, h5.2.2.2, h.2.2.2.1, h2.2.2.2.1⟩

end R2D2Log
